import Mathlib

/-!
Verification of the `play-getwild` synthesizer engine (main.go).

Shallow embedding of the Signal combinators (oscillator, envelope), the
Piano note table, and the Playback Context buffer-queue logic, with proofs
of the specified properties.  Go float32 arithmetic is modelled by exact
rationals; the audio device is modelled through the processed-buffer count
it reports at each tick, and device buffer handles are modelled as natural
numbers issued by a fresh-id counter.
-/

set_option maxRecDepth 4096

namespace GetWild

/-- Constant `QUEUE = 500` (main.go line 21): the buffer-queue cap. -/
def QUEUE : Nat := 500

/-- Constant `SampleRate = 10000` (main.go line 22). -/
def SampleRate : Nat := 10000

/-- Per-sample time step `dt := 1.0 / SampleRate` (main.go lines 46 and 71). -/
def dt : ℚ := 1 / (SampleRate : ℚ)

/-! ## Envelope (`GenEnvelope`, main.go lines 70-106) -/

/-- Attack increment `attackd := dt / 0.01` (main.go line 74). -/
def attackd : ℚ := dt / 0.01

/-- Post-peak decay decrement `dekeyd := dt / 0.03` (main.go line 75). -/
def dekeyd : ℚ := dt / 0.03

/-- Sustain threshold `sustainlevel := 0.3` (main.go line 76). -/
def sustainlevel : ℚ := 0.3

/-- Sustain decay decrement `sustaind := dt / 7.0` (main.go line 77). -/
def sustaind : ℚ := dt / 7.0

/-- Release decrement `released := dt / 0.8` (main.go line 78). -/
def released : ℚ := dt / 0.8

/-- Internal state of the closure returned by `GenEnvelope`: the
`top` flag and the current `gain` (main.go lines 72-73). -/
structure EnvState where
  top : Bool
  gain : ℚ
deriving DecidableEq, Repr

/-- Initial envelope state: `top = false`, `gain = 0.0`. -/
def envInit : EnvState := ⟨false, 0⟩

/-- One tick of the gain state machine inside the `GenEnvelope` closure
(main.go lines 80-103), driven by the current value of the pressed flag. -/
def envStep (press : Bool) (s : EnvState) : EnvState :=
  if press then
    if !s.top then
      let g := s.gain + attackd
      if g > 1 then ⟨true, 1⟩ else ⟨s.top, g⟩
    else
      let g := if s.gain > sustainlevel then s.gain - dekeyd else s.gain - sustaind
      ⟨s.top, if g < 0 then 0 else g⟩
  else
    let g := s.gain - released
    ⟨false, if g < 0 then 0 else g⟩

/-- Envelope state after a sequence of ticks with the given per-tick
pressed values, starting from the initial state. -/
def envRun (presses : List Bool) : EnvState :=
  presses.foldl (fun s p => envStep p s) envInit

/-- The sample returned by the `GenEnvelope` closure on one tick: the
updated gain times the child signal sample (main.go line 104). -/
def envOut (press : Bool) (s : EnvState) (child : ℚ) : ℚ :=
  (envStep press s).gain * child

/-! ## Oscillator (`GenOscillator`, main.go lines 45-58) -/

/-- Internal state of the closure returned by `GenOscillator`: the
accumulated time `t` (main.go line 49). -/
structure OscState where
  t : ℚ
deriving DecidableEq, Repr

/-- One invocation of the closure returned by `GenOscillator` (main.go
lines 50-57).  The code emits `Sin(k*t)` with `k = 2*Pi*freq`; since pi is
irrational we return the rational cycle count `freq * t` as the first
component, and the emitted sample is `sin(2*pi*fst)` (taken in the
theorems below), then advance `t` by `dt` and subtract the period `1/freq`
once if the advanced `t` exceeds it. -/
def oscStep (freq : ℚ) (s : OscState) : ℚ × OscState :=
  let res := freq * s.t
  let t1 := s.t + dt
  (res, ⟨if t1 > 1 / freq then t1 - 1 / freq else t1⟩)

/-- Modelled from the spec wording of section 4.1, for the refinement
check only: each invocation computes sin(2π·frequency·t) for the current
t, advances t by dt, and wraps t -= T once t > T, where T = 1/frequency. -/
def oscStepSpec (frequency : ℚ) (s : OscState) : ℚ × OscState :=
  let T := 1 / frequency
  let sample := frequency * s.t
  let tAdv := s.t + dt
  if tAdv > T then (sample, ⟨tAdv - T⟩) else (sample, ⟨tAdv⟩)

/-! ## Piano note table (`NewPiano`, `NoteOn`, `NoteOff`, main.go 120-142) -/

/-- The note-pressed table of `Piano` (main.go lines 34-37): one boolean
flag per note, created by `NewPiano` with all flags clear. -/
structure Piano where
  notes : List Bool
deriving DecidableEq, Repr

/-- The note table built by `NewPiano` for a list of base frequencies:
one cleared flag per frequency (main.go line 122). -/
def NewPianoNotes (freqs : List ℚ) : List Bool :=
  List.replicate freqs.length false

/-- `Piano.NoteOn` (main.go lines 136-138): `p.notes[key] = true`.  The Go
index is a signed int; an index that is negative or at least the table
length makes the assignment panic, modelled as `none`. -/
def NoteOn (p : Piano) (key : ℤ) : Option Piano :=
  if 0 ≤ key ∧ key < p.notes.length then
    some ⟨p.notes.set key.toNat true⟩
  else
    none

/-- `Piano.NoteOff` (main.go lines 140-142): `p.notes[key] = false`, with
the same out-of-range panic behaviour. -/
def NoteOff (p : Piano) (key : ℤ) : Option Piano :=
  if 0 ≤ key ∧ key < p.notes.length then
    some ⟨p.notes.set key.toNat false⟩
  else
    none


/-! ## Sample quantization in `Play` (main.go lines 159-163) -/

/-- Truncation of a rational toward zero, the rounding Go uses when
converting a floating-point value to an integer type. -/
def ratTrunc (x : ℚ) : ℤ :=
  if 0 ≤ x then ⌊x⌋ else ⌈x⌉

/-- Reduction of an integer to the signed 16-bit value with the same low
16 bits, as mainstream Go targets do for an out-of-range float-to-int16
conversion. -/
def toInt16 (v : ℤ) : ℤ :=
  (v + 2 ^ 15) % 2 ^ 16 - 2 ^ 15

/-- The sample value written by `Play`: `v := int16(float32(92767) * f)`
(main.go line 162), scaling by the unclamped constant 92767. -/
def quantize (f : ℚ) : ℤ :=
  toInt16 (ratTrunc (92767 * f))

/-- `binary.LittleEndian.PutUint16` of the sample (main.go line 163): the
two bytes written into the PCM buffer, low byte first. -/
def putUint16LE (v : ℤ) : List ℕ :=
  [(v % 65536).toNat % 256, (v % 65536).toNat / 256]

/-- Clamp of a sample to the unit interval. -/
def clamp (x lo hi : ℚ) : ℚ :=
  max lo (min hi x)

/-- Modelled from the spec wording of section 4.6, for comparison with the
code quantizer: `round(32767 * clamp(sample, -1, 1))`. -/
def quantizeSpec (s : ℚ) : ℤ :=
  round (32767 * clamp s (-1) 1)


/-! ## Playback Context (`Context`, `Play`, `Close`, main.go 27-32, 146-176)

The top-level Signal is abstracted as a step function over an arbitrary
state type; device buffer handles are modelled as naturals issued by a
fresh-id counter, and the device itself only enters through the
processed-buffer count it reports at the start of a tick. -/

/-- The per-call state of `Context` (main.go lines 27-32): the tracked
buffer-handle queue, a fresh-handle counter standing for the device
allocator behind `al.GenBuffers`, the state of the owned top-level Signal,
and whether the source was last asked to play (`al.PlaySources`) or stop
(`al.StopSources`). -/
structure Ctx (σ : Type) where
  queue : List ℕ
  nextBuf : ℕ
  sig : σ
  playing : Bool
deriving DecidableEq, Repr

/-- `NewContext` (main.go lines 108-118): empty queue, fresh source, the
given Signal state. -/
def NewContext (s0 : σ) : Ctx σ :=
  ⟨[], 0, s0, false⟩

/-- Advancing a Signal state machine a given number of samples. -/
def stepN (step : σ → ℚ × σ) : ℕ → σ → σ
  | 0, s => s
  | k + 1, s => stepN step k (step s).2

/-- The PCM fill loop of `Play` (main.go lines 159-164): sample the
Signal once per 16-bit output sample for `k` samples (2048 bytes means
k = 1024), quantize each sample and write its two little-endian bytes in
order.  Returns the byte buffer and the advanced Signal state. -/
def fillBuffer (step : σ → ℚ × σ) : ℕ → σ → List ℕ × σ
  | 0, s => ([], s)
  | k + 1, s =>
      let out := step s
      let rest := fillBuffer step k out.2
      (putUint16LE (quantize out.1) ++ rest.1, rest.2)

/-- The reclaim step of `Play` (main.go lines 149-155) on the tracked
queue at the list level.  When the device reports `n > 0` processed
buffers the code slices the first `n` tracked handles
(`rm := c.queue[:n]`), hands them back to the device
(`UnqueueBuffers`/`DeleteBuffers`), and then sets the whole tracked queue
to nil (`c.queue = nil`).  This list-level model bounds the slice at the
tracked length, the case in which append left no spare capacity; Go
itself bounds the slice at the capacity of the backing array, which
`reclaimGo` below models faithfully, and the theorems stated over
`reclaim` rely on it only where the two semantics coincide (`n` at most
the tracked length, or runs on which Play succeeds).  Returns the handles
handed back together with the remaining tracked queue. -/
def reclaim (n : ℕ) (queue : List ℕ) : Option (List ℕ × List ℕ) :=
  if n = 0 then some ([], queue)
  else if queue.length < n then none
  else some (queue.take n, [])

/-- The refill loop of `Play` (main.go lines 157-168): while the tracked
queue is shorter than `QUEUE`, allocate `q` fresh buffer handles, fill one
2048-byte PCM buffer from the Signal, submit the data to the first handle,
and enqueue and track all `q` handles.  The Go loop is an unbounded while
loop; it is modelled with an explicit iteration budget, and the theorems
below show a budget of `QUEUE` iterations always reaches the loop exit
condition when `q` is at least 1, so the model agrees with the code
there.  One loop iteration (`refillIter`) allocates the `q` fresh handles
(`al.GenBuffers(q)`), fills one PCM buffer from the Signal, submits the
data to the first handle, and queues and tracks all `q` handles. -/
def refillIter (step : σ → ℚ × σ) (q : ℕ) (c : Ctx σ) : Ctx σ :=
  { c with
    queue := c.queue ++ List.range' c.nextBuf q,
    nextBuf := c.nextBuf + q,
    sig := (fillBuffer step 1024 c.sig).2 }

def refillCtx (step : σ → ℚ × σ) (q : ℕ) : ℕ → Ctx σ → Ctx σ
  | 0, c => c
  | fuel + 1, c =>
      if c.queue.length < QUEUE then
        refillCtx step q fuel (refillIter step q c)
      else c

/-- `Context.Play` (main.go lines 146-170): reclaim the processed
buffers, refill the queue up to the cap, then start the source.  The
device input is the processed count `n`; the refill allocates `q` handles
per iteration.  A `Play` call with `q = 0` that enters the loop faults at
`b[0]` because `al.GenBuffers(0)` returns no handles, modelled as
`none`. -/
def Play (step : σ → ℚ × σ) (n q : ℕ) (c : Ctx σ) : Option (Ctx σ) :=
  match reclaim n c.queue with
  | none => none
  | some (_, rest) =>
      if rest.length < QUEUE ∧ q = 0 then none
      else
        some { refillCtx step q QUEUE { c with queue := rest } with playing := true }

/-- `Context.Close` (main.go lines 172-176): request the device stop the
source; nothing else is touched. -/
def Close (c : Ctx σ) : Ctx σ :=
  { c with playing := false }

/-- A sequence of `Play` ticks with a fixed per-call buffer count `q` and
the given device-reported processed counts, failing if any tick faults. -/
def PlayRun (step : σ → ℚ × σ) (q : ℕ) : List ℕ → Ctx σ → Option (Ctx σ)
  | [], c => some c
  | n :: ns, c =>
      match Play step n q c with
      | none => none
      | some c1 => PlayRun step q ns c1

/-- The constant-zero Signal, used to instantiate the concrete runs. -/
def zeroSig : Unit → ℚ × Unit :=
  fun _ => (0, ())

/-- A Go slice of buffer handles as this program holds its queue: the
backing array together with the tracked length.  The queue slice always
has offset 0 (it is only ever nil or built by append from nil and is
never resliced from a nonzero low bound), so its capacity is the length
of the backing array, with len at most cap.  How much spare capacity
append leaves beyond the length is implementation-defined in Go, so the
backing entries past `len` are arbitrary stale values. -/
structure GoSlice where
  backing : List ℕ
  len : ℕ
deriving DecidableEq, Repr

/-- The tracked queue entries of a slice: its first `len` backing
entries. -/
def GoSlice.tracked (s : GoSlice) : List ℕ :=
  s.backing.take s.len

/-- The reclaim step of `Play` (main.go lines 149-155) with Go slicing
semantics for `rm := c.queue[:n]`: the slice expression is in range
whenever `n` is at most the capacity and panics only when `n` exceeds the
capacity, so for tracked length < `n` at most cap the code does not fault
and `rm` picks up stale backing entries beyond the tracked length; the
code then sets `c.queue = nil`.  Returns the handles handed back together
with the new queue slice. -/
def reclaimGo (n : ℕ) (s : GoSlice) : Option (List ℕ × GoSlice) :=
  if n = 0 then some ([], s)
  else if s.backing.length < n then none
  else some (s.backing.take n, ⟨[], 0⟩)

lemma attackd_pos : 0 < attackd := by norm_num [attackd, dt, SampleRate]

lemma dekeyd_pos : 0 < dekeyd := by norm_num [dekeyd, dt, SampleRate]

lemma sustaind_pos : 0 < sustaind := by norm_num [sustaind, dt, SampleRate]

lemma released_pos : 0 < released := by norm_num [released, dt, SampleRate]

/-- One envelope tick keeps the gain inside the unit interval. -/
lemma envStep_gain_mem (p : Bool) (s : EnvState) (h0 : 0 ≤ s.gain)
    (h1 : s.gain ≤ 1) : 0 ≤ (envStep p s).gain ∧ (envStep p s).gain ≤ 1 := by
  have ha := attackd_pos
  have hd := dekeyd_pos
  have hs := sustaind_pos
  have hr := released_pos
  unfold envStep
  cases p <;> simp only [Bool.false_eq_true, if_true, if_false, Bool.not_eq_true']
  · constructor
    · split <;> simp <;> linarith
    · split <;> simp <;> linarith
  · split
    · split
      · simp
      · constructor
        · simp; linarith
        · simp at *; linarith
    · constructor
      · split <;> split <;> simp <;> linarith
      · split <;> split <;> simp <;> linarith

/-- C4 invariant, generalized: the gain stays in the unit interval along
any run from a state inside it. -/
lemma envRun_from_mem (presses : List Bool) (s : EnvState) (h0 : 0 ≤ s.gain)
    (h1 : s.gain ≤ 1) :
    0 ≤ (presses.foldl (fun s p => envStep p s) s).gain ∧
      (presses.foldl (fun s p => envStep p s) s).gain ≤ 1 := by
  induction presses generalizing s with
  | nil => exact ⟨h0, h1⟩
  | cons p rest ih =>
      have h := envStep_gain_mem p s h0 h1
      simpa using ih (envStep p s) h.1 h.2

/-- C4: for every sequence of pressed/not-pressed inputs, the Envelope
gain never exceeds 1.0 and never goes below 0.0 after any number of ticks
starting from gain = 0. -/
theorem envelope_gain_bounded (presses : List Bool) :
    0 ≤ (envRun presses).gain ∧ (envRun presses).gain ≤ 1 := by
  unfold envRun
  exact envRun_from_mem presses envInit (by norm_num [envInit]) (by norm_num [envInit])

lemma attackd_eq : attackd = 1 / 100 := by norm_num [attackd, dt, SampleRate]

lemma dekeyd_eq : dekeyd = 1 / 300 := by norm_num [dekeyd, dt, SampleRate]

lemma envRun_snoc (l : List Bool) (p : Bool) :
    envRun (l ++ [p]) = envStep p (envRun l) := by
  simp [envRun, List.foldl_append]

/-- Holding the note for k ticks, k at most 100, ramps the gain linearly
to k/100 with the peak flag still clear. -/
lemma envRun_replicate_true (k : Nat) (hk : k ≤ 100) :
    envRun (List.replicate k true) = ⟨false, (k : ℚ) / 100⟩ := by
  induction k with
  | zero => simp [envRun, envInit]
  | succ m ih =>
      have hm : m ≤ 100 := Nat.le_of_succ_le hk
      rw [List.replicate_succ', envRun_snoc, ih hm]
      have h100 : (m : ℚ) + 1 ≤ 100 := by exact_mod_cast hk
      have hlt : ¬ ((1 : ℚ) < (m : ℚ) / 100 + 1 / 100) := by
        intro hgt
        nlinarith
      norm_num [envStep, attackd_eq, hlt]
      ring

/-- After 101 pressed ticks the envelope reaches the peak and sets the
top flag. -/
lemma envRun_101 : envRun (List.replicate 101 true) = ⟨true, 1⟩ := by
  have h : (101 : Nat) = 100 + 1 := rfl
  rw [h, List.replicate_succ', envRun_snoc, envRun_replicate_true 100 (by norm_num)]
  norm_num [envStep, attackd_eq]

/-- After 102 pressed ticks the gain has decayed one post-peak step below
the peak while the top flag stays set. -/
lemma envRun_102 : envRun (List.replicate 102 true) = ⟨true, 299 / 300⟩ := by
  have h : (102 : Nat) = 101 + 1 := rfl
  rw [h, List.replicate_succ', envRun_snoc, envRun_101]
  norm_num [envStep, dekeyd_eq, sustainlevel]

/-- C5 counterexample: after 102 consecutive pressed ticks the note is
still pressed and the gain sits strictly below the peak 1.0, yet the next
tick strictly decreases the gain (the post-peak decay branch runs because
the internal top flag is set, even though gain is below 1.0). -/
theorem envelope_pressed_below_peak_decreases :
    (envRun (List.replicate 102 true)).gain < 1 ∧
      (envStep true (envRun (List.replicate 102 true))).gain
        < (envRun (List.replicate 102 true)).gain := by
  rw [envRun_102]
  constructor
  · norm_num
  · norm_num [envStep, dekeyd_eq, sustainlevel]

/-- C5 amended: on a pressed tick taken before the envelope has marked the
peak (top flag clear) the gain does not decrease, provided it is at most
1.0; on every unpressed tick the gain does not increase and stays at or
above the floor 0. -/
theorem envelope_tick_monotone (s : EnvState) :
    (s.top = false → s.gain ≤ 1 → s.gain ≤ (envStep true s).gain) ∧
    (0 ≤ s.gain →
      (envStep false s).gain ≤ s.gain ∧ 0 ≤ (envStep false s).gain) := by
  have ha := attackd_pos
  have hr := released_pos
  constructor
  · intro htop h1
    simp only [envStep, htop, Bool.not_false, if_true]
    split
    · exact h1
    · show s.gain ≤ s.gain + attackd
      linarith
  · intro h0
    have hrel : envStep false s =
        ⟨false, if s.gain - released < 0 then 0 else s.gain - released⟩ := by
      simp [envStep]
    rw [hrel]
    refine ⟨?_, ?_⟩
    · show (if s.gain - released < 0 then 0 else s.gain - released) ≤ s.gain
      split
      · exact h0
      · linarith
    · show (0 : ℚ) ≤ if s.gain - released < 0 then 0 else s.gain - released
      split
      · exact le_refl 0
      · linarith

/-- Witness for the amended C5 statement at a concrete envelope state. -/
theorem envelope_tick_monotone_witness :
    ((⟨false, 1 / 2⟩ : EnvState).gain ≤ (envStep true ⟨false, 1 / 2⟩).gain) ∧
    ((envStep false ⟨false, 1 / 2⟩).gain ≤ (⟨false, 1 / 2⟩ : EnvState).gain ∧
      0 ≤ (envStep false ⟨false, 1 / 2⟩).gain) :=
  ⟨(envelope_tick_monotone ⟨false, 1 / 2⟩).1 rfl (by norm_num),
   (envelope_tick_monotone ⟨false, 1 / 2⟩).2 (by norm_num)⟩

/-- C6: for every positive frequency, one oscillator invocation agrees
with the spec-side step; the emitted sample is sin(2π·freq·t) at the
current (pre-advance) t; and the advanced time is wrapped by exactly one
subtraction of the period 1/freq precisely when it exceeds 1/freq. -/
theorem oscillator_step_spec (freq : ℚ) (hf : 0 < freq) (s : OscState) :
    oscStep freq s = oscStepSpec freq s ∧
    Real.sin (2 * Real.pi * ((oscStep freq s).1 : ℝ)) =
      Real.sin (2 * Real.pi * (freq : ℝ) * (s.t : ℝ)) ∧
    (s.t + dt ≤ 1 / freq → ((oscStep freq s).2).t = s.t + dt) ∧
    (1 / freq < s.t + dt → ((oscStep freq s).2).t = s.t + dt - 1 / freq) := by
  refine ⟨?_, ?_, ?_, ?_⟩
  · by_cases h : freq⁻¹ < s.t + dt <;> simp [oscStep, oscStepSpec, h]
  · simp only [oscStep]
    push_cast
    ring_nf
  · intro h
    have h2 : ¬ (freq⁻¹ < s.t + dt) := by
      rw [inv_eq_one_div]
      exact not_lt.mpr h
    simp [oscStep, h2]
  · intro h
    have h2 : freq⁻¹ < s.t + dt := by
      rw [inv_eq_one_div]
      exact h
    simp [oscStep, h2, one_div]

/-- Witness for C6 at frequency 2 and time 0. -/
theorem oscillator_step_spec_witness :
    oscStep 2 ⟨0⟩ = oscStepSpec 2 ⟨0⟩ ∧
    Real.sin (2 * Real.pi * ((oscStep 2 ⟨0⟩).1 : ℝ)) =
      Real.sin (2 * Real.pi * ((2 : ℚ) : ℝ) * (((⟨0⟩ : OscState).t : ℚ) : ℝ)) ∧
    ((⟨0⟩ : OscState).t + dt ≤ 1 / 2 → ((oscStep 2 ⟨0⟩).2).t = (⟨0⟩ : OscState).t + dt) ∧
    (1 / 2 < (⟨0⟩ : OscState).t + dt →
      ((oscStep 2 ⟨0⟩).2).t = (⟨0⟩ : OscState).t + dt - 1 / 2) :=
  oscillator_step_spec 2 (by norm_num) ⟨0⟩
/-- C8: for a valid note index, NoteOn sets the flag and NoteOff clears
it; for every out-of-range index both fail with an index fault instead of
returning normally. -/
theorem noteOn_noteOff_spec (p : Piano) (key : ℤ) :
    (0 ≤ key → key < p.notes.length →
      NoteOn p key = some ⟨p.notes.set key.toNat true⟩ ∧
      NoteOff p key = some ⟨p.notes.set key.toNat false⟩) ∧
    (¬ (0 ≤ key ∧ key < p.notes.length) →
      NoteOn p key = none ∧ NoteOff p key = none) := by
  constructor
  · intro h0 hlen
    rw [NoteOn, NoteOff, if_pos ⟨h0, hlen⟩, if_pos ⟨h0, hlen⟩]
    exact ⟨rfl, rfl⟩
  · intro h
    rw [NoteOn, NoteOff, if_neg h, if_neg h]
    exact ⟨rfl, rfl⟩

/-- Witness for C8: a two-note piano with note 1 toggled, and the fault on
the out-of-range index 5. -/
theorem noteOn_noteOff_spec_witness :
    (NoteOn ⟨[false, false]⟩ 1 = some ⟨[false, false].set (1 : ℤ).toNat true⟩ ∧
      NoteOff ⟨[false, false]⟩ 1 = some ⟨[false, false].set (1 : ℤ).toNat false⟩) ∧
    (NoteOn ⟨[false, false]⟩ 5 = none ∧ NoteOff ⟨[false, false]⟩ 5 = none) :=
  ⟨(noteOn_noteOff_spec ⟨[false, false]⟩ 1).1 (by decide) (by decide),
   (noteOn_noteOff_spec ⟨[false, false]⟩ 5).2 (by decide)⟩
/-- C3 divergence: for the full-scale sample 1.0 the code writes
int16(92767 * 1.0), which wraps to 27231 (bytes 95, 106 little-endian),
while the specified quantizer yields 32767: the code scales by the
unclamped out-of-range constant 92767, not by round(32767 * clamp). -/
theorem quantize_ne_spec_at_one :
    quantize 1 = 27231 ∧ quantizeSpec 1 = 32767 ∧
    quantize 1 ≠ quantizeSpec 1 ∧
    putUint16LE (quantize 1) = [95, 106] := by
  have hq : quantize 1 = 27231 := by
    have h1 : ratTrunc (92767 * 1) = 92767 := by
      norm_num [ratTrunc]
    rw [quantize, h1]
    norm_num [toInt16]
  have hs : quantizeSpec 1 = 32767 := by
    norm_num [quantizeSpec, clamp]
  refine ⟨hq, hs, ?_, ?_⟩
  · rw [hq, hs]
    norm_num
  · rw [hq]
    norm_num [putUint16LE]
    decide

lemma fillBuffer_snd (step : σ → ℚ × σ) :
    ∀ (k : ℕ) (s : σ), (fillBuffer step k s).2 = stepN step k s := by
  intro k
  induction k with
  | zero => intro s; rfl
  | succ m ih => intro s; simp [fillBuffer, stepN, ih]

lemma fillBuffer_length (step : σ → ℚ × σ) :
    ∀ (k : ℕ) (s : σ), (fillBuffer step k s).1.length = 2 * k := by
  intro k
  induction k with
  | zero => intro s; rfl
  | succ m ih =>
      intro s
      simp [fillBuffer, putUint16LE, ih]
      ring

lemma stepN_add (step : σ → ℚ × σ) :
    ∀ (m n : ℕ) (s : σ), stepN step (m + n) s = stepN step n (stepN step m s) := by
  intro m
  induction m with
  | zero => intro n s; rw [Nat.zero_add]; rfl
  | succ a ih =>
      intro n s
      have h : a + 1 + n = (a + n) + 1 := by omega
      rw [h]
      show stepN step (a + n) (step s).2 = stepN step n (stepN step (a + 1) s)
      rw [ih n (step s).2]
      rfl

lemma refillIter_queue (step : σ → ℚ × σ) (q : ℕ) (c : Ctx σ) :
    (refillIter step q c).queue = c.queue ++ List.range' c.nextBuf q := rfl

lemma refillIter_queue_length (step : σ → ℚ × σ) (q : ℕ) (c : Ctx σ) :
    (refillIter step q c).queue.length = c.queue.length + q := by
  rw [refillIter_queue]
  simp

lemma refillIter_sig (step : σ → ℚ × σ) (q : ℕ) (c : Ctx σ) :
    (refillIter step q c).sig = stepN step 1024 c.sig := by
  have h : (refillIter step q c).sig = (fillBuffer step 1024 c.sig).2 := rfl
  rw [h, fillBuffer_snd]

lemma refillIter_nextBuf (step : σ → ℚ × σ) (q : ℕ) (c : Ctx σ) :
    (refillIter step q c).nextBuf = c.nextBuf + q := rfl

lemma refillIter_playing (step : σ → ℚ × σ) (q : ℕ) (c : Ctx σ) :
    (refillIter step q c).playing = c.playing := rfl

lemma refillCtx_of_full (step : σ → ℚ × σ) (q fuel : ℕ) (c : Ctx σ)
    (h : QUEUE ≤ c.queue.length) : refillCtx step q fuel c = c := by
  cases fuel with
  | zero => rfl
  | succ m => simp [refillCtx, not_lt.mpr h]

/-- Behaviour of the refill loop with enough iteration budget: the queue
grows by some number k of whole batches of q handles, the Signal advances
1024 samples per batch, the handle counter advances q per batch, and when
the loop started below the cap the final length lands in the half-open
interval from QUEUE to QUEUE + q. -/
lemma refillCtx_spec (step : σ → ℚ × σ) (q : ℕ) (hq : 0 < q) :
    ∀ (fuel : ℕ) (c : Ctx σ), QUEUE ≤ c.queue.length + fuel * q →
    ∃ k : ℕ,
      (refillCtx step q fuel c).queue.length = c.queue.length + k * q ∧
      (refillCtx step q fuel c).sig = stepN step (1024 * k) c.sig ∧
      (refillCtx step q fuel c).nextBuf = c.nextBuf + k * q ∧
      (refillCtx step q fuel c).playing = c.playing ∧
      (c.queue.length < QUEUE →
        QUEUE ≤ c.queue.length + k * q ∧ c.queue.length + k * q < QUEUE + q) ∧
      (QUEUE ≤ c.queue.length → k = 0) := by
  intro fuel
  induction fuel with
  | zero =>
      intro c hc
      refine ⟨0, by simp [refillCtx], by simp [refillCtx, stepN],
        by simp [refillCtx], by simp [refillCtx], ?_, fun _ => rfl⟩
      intro hlt
      simp only [Nat.zero_mul, Nat.add_zero] at hc ⊢
      omega
  | succ m ih =>
      intro c hc
      by_cases h : c.queue.length < QUEUE
      · have hstep :
            refillCtx step q (m + 1) c = refillCtx step q m (refillIter step q c) := by
          simp [refillCtx, h]
        have hlen2 : (refillIter step q c).queue.length = c.queue.length + q :=
          refillIter_queue_length step q c
        have hc' : QUEUE ≤ (refillIter step q c).queue.length + m * q := by
          rw [hlen2]
          have hm : c.queue.length + (m + 1) * q = c.queue.length + q + m * q := by
            ring
          omega
        obtain ⟨k, hk1, hk2, hk3, hk4, hk5, hk6⟩ := ih (refillIter step q c) hc'
        refine ⟨k + 1, ?_, ?_, ?_, ?_, ?_, ?_⟩
        · rw [hstep, hk1, hlen2]
          ring
        · rw [hstep, hk2, refillIter_sig, ← stepN_add]
          congr 1
          ring
        · rw [hstep, hk3, refillIter_nextBuf]
          ring
        · rw [hstep, hk4, refillIter_playing]
        · intro _
          by_cases h2 : (refillIter step q c).queue.length < QUEUE
          · obtain ⟨hge, hlt⟩ := hk5 h2
            rw [hlen2] at hge hlt
            have hm : c.queue.length + (k + 1) * q = c.queue.length + q + k * q := by
              ring
            exact ⟨by omega, by omega⟩
          · have hk0 : k = 0 := hk6 (not_lt.mp h2)
            subst hk0
            rw [hlen2] at h2
            have hm : c.queue.length + (0 + 1) * q = c.queue.length + q := by ring
            exact ⟨by omega, by omega⟩
        · intro hfull
          exact absurd hfull (not_le.mpr h)
      · have hstep : refillCtx step q (m + 1) c = c := by
          simp [refillCtx, h]
        refine ⟨0, by rw [hstep]; simp, by rw [hstep]; simp [stepN],
          by rw [hstep]; simp, by rw [hstep], ?_, fun _ => rfl⟩
        intro hlt
        exact absurd hlt h

/-- Fuel sufficiency at budget QUEUE: q at least 1 gives enough
iterations from any starting length. -/
lemma queue_fuel_sufficient (q len : ℕ) (hq : 0 < q) :
    QUEUE ≤ len + QUEUE * q := by
  have h1 : QUEUE * 1 ≤ QUEUE * q := Nat.mul_le_mul_left QUEUE hq
  omega

/-- C10: with q at least 1 and the post-reclaim queue below the cap, the
refill loop of Play grows the queue by k whole batches of exactly q
handles for some k, sampling the Signal exactly 1024 times per batch
(each batch building one 2048-byte buffer), and the final length is the
least multiple-of-q increment reaching the cap: at least QUEUE and
strictly below QUEUE + q. -/
theorem refill_loop_spec (q : ℕ) (hq : 0 < q) (step : σ → ℚ × σ) (c : Ctx σ)
    (hlen : c.queue.length < QUEUE) :
    (∃ k : ℕ,
      (refillCtx step q QUEUE c).queue.length = c.queue.length + k * q ∧
      QUEUE ≤ c.queue.length + k * q ∧
      c.queue.length + k * q < QUEUE + q ∧
      (refillCtx step q QUEUE c).sig = stepN step (1024 * k) c.sig ∧
      (refillCtx step q QUEUE c).nextBuf = c.nextBuf + k * q) ∧
    (fillBuffer step 1024 c.sig).1.length = 2048 ∧
    (fillBuffer step 1024 c.sig).2 = stepN step 1024 c.sig := by
  obtain ⟨k, hk1, hk2, hk3, _, hk5, _⟩ :=
    refillCtx_spec step q hq QUEUE c (queue_fuel_sufficient q c.queue.length hq)
  obtain ⟨hge, hlt⟩ := hk5 hlen
  exact ⟨⟨k, hk1, hge, hlt, hk2, hk3⟩,
    by rw [fillBuffer_length], fillBuffer_snd step 1024 c.sig⟩

/-- Witness for C10 with the constant-zero Signal, batch size 1 and a
fresh context. -/
theorem refill_loop_spec_witness :
    (∃ k : ℕ,
      (refillCtx zeroSig 1 QUEUE (NewContext ())).queue.length =
        (NewContext ()).queue.length + k * 1 ∧
      QUEUE ≤ (NewContext ()).queue.length + k * 1 ∧
      (NewContext ()).queue.length + k * 1 < QUEUE + 1 ∧
      (refillCtx zeroSig 1 QUEUE (NewContext ())).sig =
        stepN zeroSig (1024 * k) (NewContext ()).sig ∧
      (refillCtx zeroSig 1 QUEUE (NewContext ())).nextBuf =
        (NewContext ()).nextBuf + k * 1) ∧
    (fillBuffer zeroSig 1024 (NewContext ()).sig).1.length = 2048 ∧
    (fillBuffer zeroSig 1024 (NewContext ()).sig).2 =
      stepN zeroSig 1024 (NewContext ()).sig :=
  refill_loop_spec 1 (by decide) zeroSig (NewContext ()) (by decide)

/-- C1 counterexample: a single Play call with q = 3 on a fresh context
and zero processed buffers leaves 501 tracked buffers, exceeding the
QUEUE cap of 500, because the refill loop tests the cap only before
appending a whole batch of q handles. -/
theorem play_queue_overshoots_cap :
    (Play zeroSig 0 3 (NewContext ())).map (fun c => c.queue.length) = some 501 ∧
      QUEUE < 501 := by
  constructor
  · obtain ⟨⟨k, hk1, hge, hlt, _, _⟩, _, _⟩ :=
      refill_loop_spec 3 (by decide) zeroSig (NewContext ()) (by decide)
    have hlen0 : (NewContext ()).queue.length = 0 := rfl
    have hQ : QUEUE = 500 := rfl
    rw [hlen0] at hk1 hge hlt
    rw [hQ] at hge hlt
    have hk : k = 167 := by omega
    subst hk
    have hstep2 : (Play zeroSig 0 3 (NewContext ())).map (fun c => c.queue.length)
        = some ((refillCtx zeroSig 3 QUEUE (NewContext ())).queue.length) := rfl
    rw [hstep2, hk1]
  · decide

/-- Per-call bound used for the amended C1: one successful Play call
leaves the queue no longer than the larger of its entry length and
QUEUE + q - 1. -/
lemma play_len_bound (step : σ → ℚ × σ) (n q : ℕ) (hq : 0 < q) (c c1 : Ctx σ)
    (h : Play step n q c = some c1) :
    c1.queue.length ≤ max c.queue.length (QUEUE + q - 1) := by
  unfold Play at h
  cases hre : reclaim n c.queue with
  | none => rw [hre] at h; exact absurd h (by simp)
  | some pr =>
      rw [hre] at h
      have hrest : pr.2.length ≤ c.queue.length := by
        unfold reclaim at hre
        by_cases hn : n = 0
        · rw [if_pos hn] at hre
          cases hre
          simp
        · rw [if_neg hn] at hre
          by_cases hl : c.queue.length < n
          · rw [if_pos hl] at hre
            cases hre
          · rw [if_neg hl] at hre
            cases hre
            simp
      simp only at h
      by_cases hcond : pr.2.length < QUEUE ∧ q = 0
      · rw [if_pos hcond] at h
        cases h
      · rw [if_neg hcond] at h
        cases h
        show (refillCtx step q QUEUE { c with queue := pr.2 }).queue.length ≤ _
        by_cases hfull : QUEUE ≤ pr.2.length
        · rw [refillCtx_of_full step q QUEUE _ (by simpa using hfull)]
          simp only []
          exact le_max_of_le_left hrest
        · obtain ⟨⟨k, hk1, _, hlt, _, _⟩, _, _⟩ :=
            refill_loop_spec q hq step { c with queue := pr.2 }
              (by simpa using not_le.mp hfull)
          simp only [] at hk1 hlt
          rw [hk1]
          refine le_max_of_le_right ?_
          omega

/-- C1 amended: starting from a fresh context, for every q at least 1 and
every sequence of device-reported processed counts on which the Play
calls succeed, the tracked queue length after each Play call never
exceeds QUEUE + q - 1 (the cap may be overshot by at most one final short
batch of q - 1 handles; it is only guaranteed not to be exceeded when
q = 1 or q divides the shortfall). -/
theorem play_run_queue_length_bounded (q : ℕ) (hq : 0 < q)
    (step : σ → ℚ × σ) (s0 : σ) (ns : List ℕ) (c1 : Ctx σ)
    (h : PlayRun step q ns (NewContext s0) = some c1) :
    c1.queue.length ≤ QUEUE + q - 1 := by
  have key : ∀ (ns : List ℕ) (c c1 : Ctx σ),
      c.queue.length ≤ QUEUE + q - 1 →
      PlayRun step q ns c = some c1 → c1.queue.length ≤ QUEUE + q - 1 := by
    intro ns
    induction ns with
    | nil =>
        intro c c1 hlen hrun
        cases hrun
        exact hlen
    | cons n rest ih =>
        intro c c1 hlen hrun
        unfold PlayRun at hrun
        cases hp : Play step n q c with
        | none => rw [hp] at hrun; cases hrun
        | some c2 =>
            rw [hp] at hrun
            have h2 := play_len_bound step n q hq c c2 hp
            exact ih c2 c1 (le_trans h2 (max_le hlen le_rfl)) hrun
  exact key ns (NewContext s0) c1 (by simp [NewContext]) h

/-- Witness for the amended C1 at q = 1 and the empty run. -/
theorem play_run_queue_length_bounded_witness :
    (NewContext ()).queue.length ≤ QUEUE + 1 - 1 :=
  play_run_queue_length_bounded 1 (by decide) zeroSig () [] (NewContext ()) rfl

/-- C2 divergence, evaluated at the failing input: with tracked queue
[10, 11, 12] and a reported processed count of 2, the reclaim step hands
handles 10 and 11 back to the device but leaves the tracked queue empty
(c.queue = nil in the code), so handle 12 is no longer tracked, where the
claim requires the remaining queue [12]. -/
theorem reclaim_drops_tail_tracking :
    reclaim 2 [10, 11, 12] = some ([10, 11], []) ∧
      ([] : List ℕ) ≠ [12] := by
  exact ⟨rfl, by decide⟩

/-- C2 amended: when the device reports n greater than 0 processed
buffers with n not exceeding the queue length, exactly the first n
entries of the tracked queue are handed back to the device, but the
tracked queue is then reset to empty, so the entries after the first n
are no longer tracked. -/
theorem reclaim_hands_back_first_n (n : ℕ) (queue : List ℕ)
    (hn : 0 < n) (hle : n ≤ queue.length) :
    reclaim n queue = some (queue.take n, []) := by
  unfold reclaim
  rw [if_neg (Nat.pos_iff_ne_zero.mp hn), if_neg (not_lt.mpr hle)]

/-- Witness for the amended C2. -/
theorem reclaim_hands_back_first_n_witness :
    reclaim 2 [10, 11, 12] = some ([10, 11, 12].take 2, []) :=
  reclaim_hands_back_first_n 2 [10, 11, 12] (by decide) (by decide)

/-- C7: Close only requests the source stop; the tracked queue, the
handle counter and the Signal state are unchanged, nothing is flushed or
dropped, no error is possible (the operation is total), and a second
Close is a no-op. -/
theorem close_stops_source_only (c : Ctx σ) :
    (Close c).queue = c.queue ∧
    (Close c).nextBuf = c.nextBuf ∧
    (Close c).sig = c.sig ∧
    (Close c).playing = false ∧
    Close (Close c) = Close c :=
  ⟨rfl, rfl, rfl, rfl, rfl⟩

/-- C9 counterexample: with backing array [10, 11, 12, 13] (capacity 4)
and tracked queue length 3, a device-reported processed count of 4
exceeds the queue length, yet the slice c.queue[:4] is within capacity,
so the reclaim step of Play does not fault: it proceeds and hands back
the stale backing entry 13 along with the three tracked handles, refuting
that a count greater than the queue length makes Play fault. -/
theorem reclaimGo_no_fault_beyond_length :
    (⟨[10, 11, 12, 13], 3⟩ : GoSlice).len < 4 ∧
    reclaimGo 4 ⟨[10, 11, 12, 13], 3⟩ = some ([10, 11, 12, 13], ⟨[], 0⟩) ∧
    (⟨[10, 11, 12, 13], 3⟩ : GoSlice).tracked = [10, 11, 12] := by
  refine ⟨by decide, by decide, by decide⟩

/-- C9 amended: the reclaim slice c.queue[:n] is bounds-checked against
the capacity of the backing array, not against the tracked queue length:
Play faults before reclaiming anything precisely when n exceeds the
capacity; for n at most the capacity it proceeds, and the handles handed
back are exactly the first n tracked queue entries when n is at most the
queue length, but include stale backing entries beyond the tracked queue
when the queue length < n at most cap, so the reclaim step is
well-defined as tracked-buffer reclamation only under the precondition
n at most the queue length. -/
theorem reclaimGo_bounds (n : ℕ) (s : GoSlice)
    (hcap : s.len ≤ s.backing.length) :
    (s.backing.length < n → reclaimGo n s = none) ∧
    (0 < n → n ≤ s.backing.length →
      reclaimGo n s = some (s.backing.take n, ⟨[], 0⟩)) ∧
    (n ≤ s.len → (reclaimGo n s).map Prod.fst = some (s.tracked.take n)) ∧
    (s.len < n → n ≤ s.backing.length →
      (reclaimGo n s).map Prod.fst =
        some (s.tracked ++ (s.backing.drop s.len).take (n - s.len))) := by
  refine ⟨?_, ?_, ?_, ?_⟩
  · intro h
    have hn : ¬ n = 0 := by omega
    unfold reclaimGo
    rw [if_neg hn, if_pos h]
  · intro hn hle
    unfold reclaimGo
    rw [if_neg (Nat.pos_iff_ne_zero.mp hn), if_neg (not_lt.mpr hle)]
  · intro hle
    by_cases hn : n = 0
    · subst hn
      simp [reclaimGo, GoSlice.tracked]
    · unfold reclaimGo
      rw [if_neg hn, if_neg (not_lt.mpr (le_trans hle hcap))]
      simp [GoSlice.tracked, List.take_take, min_eq_left hle]
  · intro hlt hle
    have hn : ¬ n = 0 := by omega
    have hval : (reclaimGo n s).map Prod.fst = some (s.backing.take n) := by
      unfold reclaimGo
      rw [if_neg hn, if_neg (not_lt.mpr hle)]
      rfl
    rw [hval]
    show some (s.backing.take n) =
      some (s.backing.take s.len ++ (s.backing.drop s.len).take (n - s.len))
    have hn2 : s.len + (n - s.len) = n := by omega
    rw [← List.take_add, hn2]

/-- Witness for the amended C9 on a concrete slice with spare capacity:
a count above the capacity faults, a count within the tracked length
hands back exactly the tracked prefix, and a count between length and
capacity hands back a stale entry as well. -/
theorem reclaimGo_bounds_witness :
    reclaimGo 5 ⟨[10, 11, 12, 13], 3⟩ = none ∧
    (reclaimGo 2 ⟨[10, 11, 12, 13], 3⟩).map Prod.fst = some [10, 11] ∧
    (reclaimGo 4 ⟨[10, 11, 12, 13], 3⟩).map Prod.fst =
      some ([10, 11, 12] ++ [13]) :=
  ⟨(reclaimGo_bounds 5 ⟨[10, 11, 12, 13], 3⟩ (by decide)).1 (by decide),
   (reclaimGo_bounds 2 ⟨[10, 11, 12, 13], 3⟩ (by decide)).2.2.1 (by decide),
   (reclaimGo_bounds 4 ⟨[10, 11, 12, 13], 3⟩ (by decide)).2.2.2
      (by decide) (by decide)⟩

end GetWild
